import Mathlib

/-!
Verification development for the knowledge-base embedding index of
`src/server.js` (AIDLEQ2).  The JavaScript source is shallowly embedded:
strings are Lean `String` values manipulated through `List Char`
primitives that mirror the JS string methods used by the code, the
single-threaded async execution of `indexKB` is embedded as a trace of
the states observable at each `await` suspension point, and the OpenAI
embedding endpoint is an abstract function parameter (an external
collaborator).  JS numbers appearing in embedding vectors are modelled
by an arbitrary scalar type (instantiated at `ℤ` in concrete runs) and
by `ℝ` where the arithmetic of `cosine` matters.
-/

namespace AidleqKB

/-! JS string primitives, over `List Char` so that concrete instances
can be evaluated by the kernel. -/

/-- Whitespace test used to model JS `String.prototype.trim` and the
whitespace class of `\s` (restricted to the ASCII whitespace characters;
every character below is whitespace for JS as well). -/
def isJsWs (c : Char) : Bool :=
  c = ' ' ∨ c = '\t' ∨ c = '\n' ∨ c = '\r' ∨ c = '\x0b' ∨ c = '\x0c'

/-- Carriage return / line feed test, for the `[\r\n]` character class. -/
def isNlChar (c : Char) : Bool := c = '\r' ∨ c = '\n'

/-- JS `s.trim()`: strip leading and trailing whitespace. -/
def jsTrim (s : String) : String :=
  ⟨((s.data.dropWhile isJsWs).reverse.dropWhile isJsWs).reverse⟩

/-- JS `s.slice(i, i + n)` for non-negative arguments. -/
def jsSlice (s : String) (i n : Nat) : String :=
  ⟨(s.data.drop i).take n⟩

/-- Index of the first occurrence of `needle` in a character list
(JS `String.prototype.indexOf`, with `none` for the result `-1`). -/
def idxOfSeq (needle : List Char) : List Char → Option Nat
  | [] => if needle = [] then some 0 else none
  | c :: rest =>
    if needle.isPrefixOf (c :: rest) then some 0
    else (idxOfSeq needle rest).map (· + 1)

/-- JS `s.includes(sub)`. -/
def jsIncludes (s sub : String) : Bool := (idxOfSeq sub.data s.data).isSome

/-- Fuel-driven worker for JS `String.prototype.split` on a non-empty
separator.  Each recursive call drops at least one character, so fuel
`s.length + 1` always suffices; the fuel-exhausted branch is never
reached for that choice. -/
def splitSeqF (sep : List Char) : Nat → List Char → List (List Char)
  | 0, s => [s]
  | fuel + 1, s =>
    if sep = [] then [s]
    else
      match idxOfSeq sep s with
      | none => [s]
      | some i => s.take i :: splitSeqF sep fuel (s.drop (i + sep.length))

/-- JS `s.split(sep)` (for the non-empty separators the server uses). -/
def splitSeq (sep s : List Char) : List (List Char) :=
  splitSeqF sep (s.length + 1) s

/-! The chunker, `src/server.js` lines 185-189:

    function chunk(text, size=2500, overlap=250) {
      const out = [];
      let i=0; while (i<text.length) { out.push(text.slice(i, i+size)); i += (size - overlap); }
      return out;
    }

The loop is embedded with explicit fuel: `none` means the fuel ran out,
which models the possibility of divergence (for `overlap ≥ size` the JS
loop never advances `i` past the text).  Each produced chunk is paired
with the start offset `i` of its window so that the offset sequence is
part of the observable result. -/

/-- One JS `while` iteration per unit of fuel; returns the list of
(start offset, `text.slice(i, i+size)`) pairs produced from offset `i`
onwards, or `none` if `fuel` iterations were not enough. -/
def chunkFuel (text : String) (size overlap : Nat) : Nat → Nat → Option (List (Nat × String))
  | 0, _ => none
  | fuel + 1, i =>
    if i < text.length then
      match chunkFuel text size overlap fuel (i + (size - overlap)) with
      | none => none
      | some rest => some ((i, jsSlice text i size) :: rest)
    else
      some []

/-- Run `chunk` with the canonical fuel budget `text.length + 1`
(sufficient whenever the loop terminates at all, i.e. when the advance
step `size - overlap` is positive). -/
def chunkRun (text : String) (size overlap : Nat) : Option (List (Nat × String)) :=
  chunkFuel text size overlap (text.length + 1) 0

/-- The chunk list as the server consumes it (slices only).  For the
terminating parameter ranges this equals the JS `chunk` output. -/
def chunkJS (text : String) (size overlap : Nat) : List String :=
  ((chunkRun text size overlap).getD []).map Prod.snd

/-! Decimal rendering of the chunk ordinal, as produced by JS template
interpolation of a non-negative integer. -/

/-- Little-endian digit characters of `n` (empty for `0`), with fuel. -/
def natToDecAux : Nat → Nat → List Char
  | 0, _ => []
  | _ + 1, 0 => []
  | fuel + 1, n + 1 => Nat.digitChar ((n + 1) % 10) :: natToDecAux fuel ((n + 1) / 10)

/-- Decimal digit string of a natural number, most significant first. -/
def natToDec (n : Nat) : List Char :=
  if n = 0 then ['0'] else (natToDecAux n n).reverse

/-- Decimal string of a natural number. -/
def natToDecStr (n : Nat) : String := ⟨natToDec n⟩

/-- Chunk record id, line 218 of `src/server.js`: the template
interpolation of the file id, a hash mark and the chunk ordinal. -/
def mkChunkId (fileId : String) (idx : Nat) : String :=
  fileId ++ "#" ++ natToDecStr idx

/-! Data model. -/

/-- Front-matter metadata of a knowledge-base document (the fields the
server reads from the parsed JSON block). -/
structure Meta where
  title : String
  jurisdiction : String
  version : String
  as_of : String
  tags : List String
deriving DecidableEq, Repr

/-- Models `JSON.stringify(meta)` (line 214).  The precise rendering of
the serialization is irrelevant to every claim below; the model only
needs it to be a definite string of the metadata. -/
def metaSerialize (m : Meta) : String :=
  m.title ++ "," ++ m.jurisdiction ++ "," ++ m.version ++ "," ++ m.as_of ++
    m.tags.foldl (fun a t => a ++ "," ++ t) ""

/-- A file record as pushed onto `kbFiles` (lines 207-212). -/
structure FileRec where
  id : String
  file : String
  meta : Meta
  summaryEN : String
  summaryAR : String
  bodyEN : String
  bodyAR : String
deriving DecidableEq, Repr

/-- A chunk record as pushed onto `kbChunks` (line 218).  The embedding
scalar type is a parameter: `ℤ` in concrete runs, `ℝ` where the cosine
arithmetic matters. -/
structure ChunkRec (α : Type) where
  id : String
  fileId : String
  text : String
  meta : Meta
  embedding : List α
deriving DecidableEq, Repr

/-- A source document as seen by `indexKB` after `readAllFiles`,
`fs.readFileSync` and `parseFrontJSON` (lines 200-204): its path, the
parsed front-matter (`none` when `parseFrontJSON` found no valid JSON
prefix, in which case the file is skipped), and the remaining body. -/
structure SrcFile where
  path : String
  meta : Option Meta
  body : String
deriving DecidableEq, Repr

/-- The bilingual separator of `splitENAR` (line 181). -/
def enArSep : String := "\n— — —\n"

/-- Lines 180-184: split the body on the bilingual separator into the
English and Arabic sections, both trimmed; without a separator the whole
body is English and the Arabic part is empty. -/
def splitENAR (body : String) : String × String :=
  if jsIncludes body enArSep then
    let parts := splitSeq enArSep.data body.data
    (jsTrim ⟨parts.getD 0 []⟩, jsTrim ⟨parts.getD 1 []⟩)
  else
    (jsTrim body, "")

/-- The replacement of the leading `\s*[\r\n]+` regex match in
`extractSection` (line 196): drop the longest all-whitespace prefix that
ends with a carriage return or line feed, if any. -/
def dropLeadingWsNl (s : List Char) : List Char :=
  let w := s.takeWhile isJsWs
  match w.reverse.findIdx? isNlChar with
  | none => s
  | some j => s.drop (w.length - j)

/-- Lines 190-197: locate `title` in `md`, take the text up to the next
`\n**` heading marker, trim it, strip a leading whitespace/newline run,
and cap the result at 600 characters. -/
def extractSection (md title : String) : String :=
  match idxOfSeq title.data md.data with
  | none => ""
  | some idx =>
    let after : List Char := md.data.drop (idx + title.data.length)
    let sec : List Char :=
      match idxOfSeq "\n**".data after with
      | some n => after.take n
      | none => after
    ⟨(dropLeadingWsNl (jsTrim ⟨sec⟩).data).take 600⟩

/-- Node `path.basename(fp, '.md')` (line 206): the last `/`-separated
segment of the path, with a trailing `.md` removed (unless the segment
is exactly `.md`, which Node keeps). -/
def basenameMd (p : String) : String :=
  let base : List Char := (splitSeq "/".data p.data).getLastD []
  if ".md".data.isSuffixOf base ∧ base ≠ ".md".data then
    ⟨base.take (base.length - 3)⟩
  else
    ⟨base⟩

/-- The file record built at lines 206-212 for a document whose
front-matter parsed as `m`. -/
def mkFileRec (path : String) (m : Meta) (body : String) : FileRec :=
  let en := (splitENAR body).1
  let ar := (splitENAR body).2
  { id := basenameMd path
    file := path
    meta := m
    summaryEN := extractSection en "**Summary**"
    summaryAR := extractSection ar "**Summary**"
    bodyEN := en
    bodyAR := ar }

/-- Line 214: the text blob that is chunked and embedded for a file. -/
def textForEmbed (m : Meta) (body : String) : String :=
  metaSerialize m ++ "\n" ++ (splitENAR body).1 ++ "\n" ++ (splitENAR body).2

/-- Line 215: the chunk list submitted to the embedding endpoint for one
document (`chunk(textForEmbed, 2500, 250)`). -/
def docParts (m : Meta) (body : String) : List String :=
  chunkJS (textForEmbed m body) 2500 250

/-- Lines 217-219: the chunk records pushed for one file, one per
returned embedding, in order; `parts[idx]` is modelled with a default of
the empty string for an out-of-range index (JS would yield `undefined`;
the embedding endpoint contract returns one vector per input, keeping
the index in range). -/
def mkChunks {α : Type} (fid : String) (m : Meta) (parts : List String)
    (embeds : List (List α)) : List (ChunkRec α) :=
  embeds.enum.map fun p =>
    { id := mkChunkId fid p.1
      fileId := fid
      text := parts.getD p.1 ""
      meta := m
      embedding := p.2 }

/-- The shared mutable module state: the `kbFiles` and `kbChunks`
arrays (lines 151-152). -/
structure KBState (α : Type) where
  files : List FileRec
  chunks : List (ChunkRec α)
deriving DecidableEq, Repr

/-- The embedding capability `openaiEmbed` (lines 60-69), abstracted:
it maps a batch of texts to one vector per text, or fails (a rejected
fetch / non-ok response, which the JS code surfaces as a thrown
`Error`; the message is irrelevant, hence `Unit`). -/
def Embedder (α : Type) : Type := List String → Except Unit (List (List α))

/-- Decidable equality of embedding-call results, for evaluating
concrete runs. -/
instance : DecidableEq (Except Unit Unit)
  | .ok (), .ok () => isTrue rfl
  | .ok (), .error () => isFalse fun h => Except.noConfusion h
  | .error (), .ok () => isFalse fun h => Except.noConfusion h
  | .error (), .error () => isTrue rfl

/-- The outcome of one `indexKB()` call (lines 198-221), as a trace:
`susp` lists, in order, the contents of the shared `kbFiles`/`kbChunks`
state at each `await openaiEmbed(...)` suspension point — exactly the
states a concurrent reader (e.g. a search request) can observe while the
build is in flight, since the server is a single-threaded event loop and
the rest of the loop body is synchronous; `final` is the state when the
call returns or throws; `result` is `ok` on normal return and `error`
when an embedding failure propagates out of `indexKB`. -/
structure KBTrace (α : Type) where
  susp : List (KBState α)
  final : KBState α
  result : Except Unit Unit
deriving DecidableEq, Repr

/-- The per-file loop of `indexKB` (lines 201-220) from a given shared
state: skip documents without parsed front-matter; otherwise push the
file record, suspend on the embedding call, and on success push the
chunk records and continue; on failure the thrown error aborts the loop
with the state as it stands. -/
def kbRunAux {α : Type} (embed : Embedder α) : List SrcFile → KBState α → KBTrace α
  | [], s => ⟨[], s, .ok ()⟩
  | d :: rest, s =>
    match d.meta with
    | none => kbRunAux embed rest s
    | some m =>
      let fr := mkFileRec d.path m d.body
      let parts := docParts m d.body
      let s1 : KBState α := ⟨s.files ++ [fr], s.chunks⟩
      match embed parts with
      | .error e => ⟨[s1], s1, .error e⟩
      | .ok embeds =>
        let s2 : KBState α := ⟨s1.files, s1.chunks ++ mkChunks fr.id m parts embeds⟩
        let t := kbRunAux embed rest s2
        ⟨s1 :: t.susp, t.final, t.result⟩

/-- `indexKB()` (lines 198-221): clear both arrays, then run the
per-file loop over the documents found under the knowledge-base root. -/
def indexKB {α : Type} (embed : Embedder α) (docs : List SrcFile) : KBTrace α :=
  kbRunAux embed docs ⟨[], []⟩

/-- The file ids of the documents `indexKB` actually indexes (those with
parsed front-matter), in order. -/
def validIds (docs : List SrcFile) : List String :=
  docs.filterMap fun d => d.meta.map fun _ => basenameMd d.path

/-- The file records of a completed build over `docs`. -/
def builtFiles (docs : List SrcFile) : List FileRec :=
  docs.filterMap fun d => d.meta.map fun m => mkFileRec d.path m d.body

/-! Concurrency model for the reindex endpoint.  `POST /api/kb/index`
(lines 670-676) simply runs `await indexKB()` for every authorized
request; there is no shared in-flight handle, so a second overlapping
request runs its own complete build.  Each handler is compiled to the
straight-line list of its atomic effects on the shared state; the
event loop may interleave two handlers' action lists arbitrarily
(at suspension points), but every action of both handlers executes
exactly once.  The control flow of `indexKB` depends only on the
documents and the embedder, never on the shared arrays, so the compiled
action list of a handler is independent of the interleaving. -/

/-- One atomic effect of an `indexKB` run on the shared state. -/
inductive KBAct (α : Type) where
  | clear : KBAct α
  | pushFile : FileRec → KBAct α
  | embedCall : List String → KBAct α
  | pushChunks : List (ChunkRec α) → KBAct α
deriving DecidableEq, Repr

/-- Straight-line compilation of the per-file loop of `indexKB`. -/
def buildActs {α : Type} (embed : Embedder α) : List SrcFile → List (KBAct α)
  | [] => []
  | d :: rest =>
    match d.meta with
    | none => buildActs embed rest
    | some m =>
      let fr := mkFileRec d.path m d.body
      let parts := docParts m d.body
      KBAct.pushFile fr :: KBAct.embedCall parts ::
        (match embed parts with
         | .error _ => []
         | .ok embeds => KBAct.pushChunks (mkChunks fr.id m parts embeds) :: buildActs embed rest)

/-- The action list of one authorized `POST /api/kb/index` handler:
clear the arrays, then the per-file loop. -/
def reindexTask {α : Type} (embed : Embedder α) (docs : List SrcFile) : List (KBAct α) :=
  KBAct.clear :: buildActs embed docs

/-- Effect of one action on the shared state. -/
def execAct {α : Type} (s : KBState α) : KBAct α → KBState α
  | .clear => ⟨[], []⟩
  | .pushFile r => ⟨s.files ++ [r], s.chunks⟩
  | .embedCall _ => s
  | .pushChunks cs => ⟨s.files, s.chunks ++ cs⟩

/-- Sequential execution of an action list. -/
def execActs {α : Type} (s : KBState α) (acts : List (KBAct α)) : KBState α :=
  acts.foldl execAct s

/-- Whether an action is an invocation of the embedding endpoint. -/
def isEmbedCall {α : Type} : KBAct α → Bool
  | .embedCall _ => true
  | _ => false

/-- Number of embedding-endpoint invocations in an action list. -/
def embedCallCount {α : Type} (acts : List (KBAct α)) : Nat :=
  acts.countP isEmbedCall

/-- An interleaving of two sequences: the event loop runs the actions of
two concurrent handlers in some order that preserves each handler's own
program order. -/
inductive Interleave {τ : Type} : List τ → List τ → List τ → Prop where
  | nil : Interleave [] [] []
  | left {x : τ} {xs ys zs : List τ} :
      Interleave xs ys zs → Interleave (x :: xs) ys (x :: zs)
  | right {y : τ} {xs ys zs : List τ} :
      Interleave xs ys zs → Interleave xs (y :: ys) (y :: zs)

/-! Cosine similarity, `src/server.js` lines 70-74:

    function cosine(a, b) {
      let dot=0, na=0, nb=0;
      for (let i=0; i<a.length && i<b.length; i++) { const x=a[i], y=b[i]; dot+=x*y; na+=x*x; nb+=y*y; }
      return dot / ((Math.sqrt(na)*Math.sqrt(nb)) || 1);
    }

The loop runs over the common prefix of the two vectors and accumulates
the dot product and the two squared norms; JS `x || 1` replaces a zero
(or NaN, impossible here since the radicands are non-negative)
denominator by 1. -/

/-- The loop accumulator: (dot, na, nb) over the common prefix. -/
noncomputable def cosineSums : List ℝ → List ℝ → ℝ × ℝ × ℝ
  | x :: xs, y :: ys =>
    let s := cosineSums xs ys
    (s.1 + x * y, s.2.1 + x * x, s.2.2 + y * y)
  | _, _ => (0, 0, 0)

/-- The denominator actually divided by: `(Math.sqrt(na)*Math.sqrt(nb)) || 1`. -/
noncomputable def cosineDen (a b : List ℝ) : ℝ :=
  let s := cosineSums a b
  let p := Real.sqrt s.2.1 * Real.sqrt s.2.2
  if p = 0 then 1 else p

/-- The cosine similarity function of the server. -/
noncomputable def cosine (a b : List ℝ) : ℝ :=
  (cosineSums a b).1 / cosineDen a b

/-! The search endpoint, `POST /api/kb/search` (lines 645-667). -/

/-- A chunk together with its query score, as built by the `.map` at
line 650 (the JS spread copies the chunk's fields and adds `score`). -/
structure Scored where
  ch : ChunkRec ℝ
  score : ℝ

/-- Line 650: score every chunk of the current generation against the
query embedding. -/
noncomputable def scoreChunks (qEmb : List ℝ) (chunks : List (ChunkRec ℝ)) : List Scored :=
  chunks.map fun ch => ⟨ch, cosine qEmb ch.embedding⟩

/-- The comparator `(a,b) => b.score - a.score` of line 651, as the
stable-sort ordering it induces: `a` may stay before `b` iff
`b.score ≤ a.score` (JS `Array.prototype.sort` is stable, as is
`List.mergeSort`). -/
noncomputable def scoredLe (a b : Scored) : Bool := b.score ≤ a.score

/-- Line 651: sort descending by score and keep the first 20 chunks. -/
noncomputable def rankedTop20 (qEmb : List ℝ) (chunks : List (ChunkRec ℝ)) : List Scored :=
  ((scoreChunks qEmb chunks).mergeSort scoredLe).take 20

/-- A search result item (lines 658-662). -/
structure SearchItem where
  id : String
  title : String
  jurisdiction : String
  version : String
  as_of : String
  summaryEN : String
  summaryAR : String
  tags : List String
deriving DecidableEq, Repr

/-- The item pushed for a matched file (lines 658-662). -/
def mkSearchItem (f : FileRec) : SearchItem :=
  ⟨f.id, f.meta.title, f.meta.jurisdiction, f.meta.version, f.meta.as_of,
    f.summaryEN, f.summaryAR, f.meta.tags⟩

/-- The deduplication loop of lines 652-664: walk the ranked chunks,
skip already-seen file ids, look the file up in `kbFiles`, push an item
when found, and stop once five items are collected. -/
def dedupLoop (kbFiles : List FileRec) : List Scored → List String → List SearchItem → List SearchItem
  | [], _, items => items
  | sc :: rest, seen, items =>
    if sc.ch.fileId ∈ seen then
      dedupLoop kbFiles rest seen items
    else
      match kbFiles.find? (fun f => f.id = sc.ch.fileId) with
      | some f =>
        let items' := items ++ [mkSearchItem f]
        if 5 ≤ items'.length then items'
        else dedupLoop kbFiles rest (sc.ch.fileId :: seen) items'
      | none =>
        if 5 ≤ items.length then items
        else dedupLoop kbFiles rest (sc.ch.fileId :: seen) items

/-- The item list computed by the search endpoint for a query embedding
(lines 650-664). -/
noncomputable def searchItems (kbFiles : List FileRec) (kbChunks : List (ChunkRec ℝ))
    (qEmb : List ℝ) : List SearchItem :=
  dedupLoop kbFiles (rankedTop20 qEmb kbChunks) [] []

/-- The whole `POST /api/kb/search` handler (lines 645-666) for a raw
query string: trim it; an empty result short-circuits without touching
the embedding endpoint, otherwise the (trimmed) query is embedded once
and the ranked items are returned.  The second component counts the
`openaiEmbed` invocations the handler performed. -/
noncomputable def kbSearchEndpoint (kbFiles : List FileRec) (kbChunks : List (ChunkRec ℝ))
    (embedOne : String → List ℝ) (qRaw : String) : List SearchItem × Nat :=
  let q := jsTrim qRaw
  if q = "" then ([], 0)
  else (searchItems kbFiles kbChunks (embedOne q), 1)

/-! Cache store.  The persist/hydrate cache of the knowledge-base index
is code of this repository that is not under `src/` — only its test
suite (`src/app/__tests__/kb.spec.js`, which imports `KB_CACHE_VERSION`
from `app/lib/kbVersion.js` and exercises `kb_cache.json`) is present.
It is therefore modelled from the spec (§4.4, §6). -/

/-- Modelled from the spec: the on-disk serialization of an index
generation, "one JSON-serializable document … containing
versionStamp, builtAt, files, chunks"; the version stamp is the sole
compatibility gate.  (Missing from `src/`: the Cache Store module; only
its tests are under `src/`.) -/
structure CachePayload (α : Type) where
  version : Int
  generatedAt : Int
  files : List FileRec
  chunks : List (ChunkRec α)
deriving DecidableEq, Repr

/-- Modelled from the spec: `persist(generation)` writes a versioned
payload tagged with the code's expected current version stamp and the
build timestamp.  (Missing from `src/`: the Cache Store module.) -/
def cachePersist {α : Type} (expectedVersion : Int) (builtAt : Int)
    (files : List FileRec) (chunks : List (ChunkRec α)) : CachePayload α :=
  ⟨expectedVersion, builtAt, files, chunks⟩

/-- Modelled from the spec: `hydrate() -> IndexGeneration | absent`;
`none` as input models a missing/unreadable cache file, and a payload
whose version stamp differs from the code's expected current version is
treated as absent.  (Missing from `src/`: the Cache Store module.) -/
def cacheHydrate {α : Type} (expectedVersion : Int) :
    Option (CachePayload α) → Option (List FileRec × List (ChunkRec α))
  | none => none
  | some p => if p.version = expectedVersion then some (p.files, p.chunks) else none

/-! Concrete fixtures used by the closed counterexample and witness
statements below. -/

/-- Empty front-matter metadata. -/
def mEmpty : Meta := ⟨"", "", "", "", []⟩

/-- An embedder that always succeeds, returning one zero vector per
input text. -/
def embedConstZ : Embedder ℤ := fun ts => .ok (ts.map fun _ => [0])

/-- An embedder that always fails (the OpenAI endpoint returning a
non-ok response). -/
def embedFailZ : Embedder ℤ := fun _ => .error ()

/-- A single valid document. -/
def docSingle : List SrcFile := [⟨"a/x.md", some mEmpty, ""⟩]

/-- Two valid documents in different directories sharing the basename
`x.md`. -/
def docsDup : List SrcFile := [⟨"a/x.md", some mEmpty, ""⟩, ⟨"b/x.md", some mEmpty, ""⟩]

/-- A file record with a given id (lookup target of the search). -/
def fileOf (s : String) : FileRec := ⟨s, s, mEmpty, "", "", "", ""⟩

/-- A chunk record of file `s` with an empty embedding. -/
def chunkOf (s : String) : ChunkRec ℝ := ⟨s, s, s, mEmpty, []⟩

/-- Six knowledge-base files A-F. -/
def filesSix : List FileRec :=
  [fileOf "A", fileOf "B", fileOf "C", fileOf "D", fileOf "E", fileOf "F"]

/-- Twenty-two chunks: five per file for A-D, then one each for E and F,
so six distinct files hold chunks but the top-20 cut keeps only A-D. -/
def chunksTwentyTwo : List (ChunkRec ℝ) :=
  [chunkOf "A", chunkOf "A", chunkOf "A", chunkOf "A", chunkOf "A",
   chunkOf "B", chunkOf "B", chunkOf "B", chunkOf "B", chunkOf "B",
   chunkOf "C", chunkOf "C", chunkOf "C", chunkOf "C", chunkOf "C",
   chunkOf "D", chunkOf "D", chunkOf "D", chunkOf "D", chunkOf "D",
   chunkOf "E", chunkOf "F"]

/-- Two valid documents with distinct basenames. -/
def docsDistinct : List SrcFile := [⟨"a/x.md", some mEmpty, ""⟩, ⟨"b/y.md", some mEmpty, ""⟩]

/-! Theorems.  Shared helper lemmas come first, then one theorem per
claim (with its witness or counterexample where required). -/

/-- The chunking loop with positive advance step: enough fuel yields a
result whose start offsets are the arithmetic progression
`i, i+d, i+2d, …` (`d = size - overlap`) covering exactly the offsets
below the text length. -/
theorem chunkFuel_sound (text : String) (size overlap : Nat) (hstep : overlap < size) :
    ∀ fuel i, text.length - i < fuel →
      ∃ out, chunkFuel text size overlap fuel i = some out ∧
        out.map Prod.fst = (List.range out.length).map (fun k => i + k * (size - overlap)) ∧
        (∀ k, k < out.length ↔ i + k * (size - overlap) < text.length) := by
  intro fuel
  induction fuel with
  | zero => intro i h; omega
  | succ fuel ih =>
    intro i h
    by_cases hi : i < text.length
    · have hd : 0 < size - overlap := by omega
      have hrec : text.length - (i + (size - overlap)) < fuel := by omega
      obtain ⟨out, hout, hmap, hiff⟩ := ih (i + (size - overlap)) hrec
      refine ⟨(i, jsSlice text i size) :: out, ?_, ?_, ?_⟩
      · simp [chunkFuel, hi, hout]
      · have h0 : (List.range (out.length + 1)).map (fun k => i + k * (size - overlap))
            = i :: (List.range out.length).map
                (fun k => (i + (size - overlap)) + k * (size - overlap)) := by
          rw [List.range_succ_eq_map, List.map_cons, List.map_map]
          refine congrArg₂ _ (by simp) ?_
          refine List.map_congr_left fun k _ => ?_
          simp [Function.comp, Nat.succ_mul]
          ring
        simp only [List.map_cons, List.length_cons, h0, hmap]
      · intro k
        match k with
        | 0 => simpa using hi
        | j + 1 =>
          have hj := hiff j
          have harith : i + (j + 1) * (size - overlap)
              = (i + (size - overlap)) + j * (size - overlap) := by ring
          rw [List.length_cons, Nat.succ_lt_succ_iff, harith]
          exact hj
    · refine ⟨[], ?_, by simp, ?_⟩
      · simp [chunkFuel, hi]
      · intro k
        have hk : text.length ≤ i + k * (size - overlap) :=
          le_trans (Nat.not_lt.mp hi) (Nat.le_add_right i _)
        simp [Nat.not_lt.mpr hk]

/-- C6: for every text and all chunking parameters with
`overlap < size`, `chunk(text, size, overlap)` terminates (the fuelled
loop returns a result within `text.length + 1` iterations), the start
offsets of the returned chunks strictly increase, each window advances
by exactly `size - overlap` characters (the offsets are exactly
`0, d, 2d, …` with `d = size - overlap`), and windows are produced for
precisely the offsets strictly below the text length (the loop stops as
soon as the window would start at or past the text length). -/
theorem c6_chunk_terminates_offsets_increase (text : String) (size overlap : Nat)
    (h : overlap < size) :
    ∃ out, chunkRun text size overlap = some out ∧
      out.map Prod.fst = (List.range out.length).map (fun k => k * (size - overlap)) ∧
      (out.map Prod.fst).Pairwise (fun a b => a < b) ∧
      (∀ k, k < out.length ↔ k * (size - overlap) < text.length) := by
  have hd : 0 < size - overlap := by omega
  obtain ⟨out, hout, hmap, hiff⟩ :=
    chunkFuel_sound text size overlap h (text.length + 1) 0 (by omega)
  have hmap' : out.map Prod.fst = (List.range out.length).map (fun k => k * (size - overlap)) := by
    rw [hmap]
    exact List.map_congr_left fun k _ => by omega
  refine ⟨out, hout, hmap', ?_, ?_⟩
  · rw [hmap']
    refine List.pairwise_map.mpr ?_
    exact (List.pairwise_lt_range out.length).imp fun hab => by
      exact (mul_lt_mul_right hd).mpr hab
  · intro k
    have := hiff k
    omega

/-- Witness for C6 at `text = "abcde"`, `size = 3`, `overlap = 1`. -/
theorem c6_witness :
    1 < 3 ∧
    ∃ out, chunkRun "abcde" 3 1 = some out ∧
      out.map Prod.fst = (List.range out.length).map (fun k => k * (3 - 1)) ∧
      (out.map Prod.fst).Pairwise (fun a b => a < b) ∧
      (∀ k, k < out.length ↔ k * (3 - 1) < "abcde".length) :=
  ⟨by decide, c6_chunk_terminates_offsets_increase "abcde" 3 1 (by decide)⟩

/-- If every entry of the left vector is zero, the accumulated dot
product and left squared norm are zero. -/
theorem cosineSums_left_zero :
    ∀ (a b : List ℝ), (∀ x ∈ a, x = 0) →
      (cosineSums a b).1 = 0 ∧ (cosineSums a b).2.1 = 0 := by
  intro a
  induction a with
  | nil => intro b _; simp [cosineSums]
  | cons x xs ih =>
    intro b h
    cases b with
    | nil => simp [cosineSums]
    | cons y ys =>
      have hx : x = 0 := h x (by simp)
      have hr := ih ys (fun z hz => h z (by simp [hz]))
      simp [cosineSums, hx, hr.1, hr.2]

/-- If every entry of the right vector is zero, the accumulated dot
product and right squared norm are zero. -/
theorem cosineSums_right_zero :
    ∀ (a b : List ℝ), (∀ y ∈ b, y = 0) →
      (cosineSums a b).1 = 0 ∧ (cosineSums a b).2.2 = 0 := by
  intro a
  induction a with
  | nil => intro b _; simp [cosineSums]
  | cons x xs ih =>
    intro b h
    cases b with
    | nil => simp [cosineSums]
    | cons y ys =>
      have hy : y = 0 := h y (by simp)
      have hr := ih ys (fun z hz => h z (by simp [hz]))
      simp [cosineSums, hy, hr.1, hr.2]

/-- C7: whenever at least one of the two vectors has zero magnitude
(all entries zero), `cosine` returns 0, and the division is by the
guarded denominator 1, never by zero: the JS `|| 1` fallback replaces
the vanishing product of square roots. -/
theorem c7_cosine_zero_magnitude (a b : List ℝ)
    (h : (∀ x ∈ a, x = 0) ∨ (∀ y ∈ b, y = 0)) :
    cosine a b = 0 ∧ cosineDen a b = 1 := by
  have hden : cosineDen a b = 1 := by
    rcases h with h | h
    · have hna := (cosineSums_left_zero a b h).2
      simp [cosineDen, hna, Real.sqrt_zero]
    · have hnb := (cosineSums_right_zero a b h).2
      simp [cosineDen, hnb, Real.sqrt_zero]
  have hdot : (cosineSums a b).1 = 0 := by
    rcases h with h | h
    · exact (cosineSums_left_zero a b h).1
    · exact (cosineSums_right_zero a b h).1
  refine ⟨?_, hden⟩
  simp [cosine, hden, hdot]

/-- Witness for C7 at the zero vector `[0, 0]` against `[1, 2]`. -/
theorem c7_witness :
    cosine [0, 0] [1, 2] = 0 ∧ cosineDen [0, 0] [1, 2] = 1 :=
  c7_cosine_zero_magnitude [0, 0] [1, 2] (Or.inl (by intro x hx; simpa using hx))

/-- Trimming a string all of whose characters are whitespace yields the
empty string. -/
theorem jsTrim_all_ws (q : String) (h : ∀ c ∈ q.data, isJsWs c) : jsTrim q = "" := by
  have h1 : q.data.dropWhile isJsWs = [] := by
    rw [List.dropWhile_eq_nil_iff]
    intro c hc
    exact h c hc
  show (⟨((q.data.dropWhile isJsWs).reverse.dropWhile isJsWs).reverse⟩ : String) = ""
  rw [h1]
  rfl

/-- C9: a search request whose raw query is empty or consists only of
whitespace short-circuits to the empty item list and performs zero
invocations of the embedding endpoint. -/
theorem c9_whitespace_query_short_circuit (kbFiles : List FileRec)
    (kbChunks : List (ChunkRec ℝ)) (embedOne : String → List ℝ) (q : String)
    (h : ∀ c ∈ q.data, isJsWs c) :
    kbSearchEndpoint kbFiles kbChunks embedOne q = ([], 0) := by
  unfold kbSearchEndpoint
  rw [jsTrim_all_ws q h]
  rfl

/-- Witness for C9 at the whitespace-only query `" \t "`. -/
theorem c9_witness :
    kbSearchEndpoint [] [] (fun _ => []) " \t " = ([], 0) :=
  c9_whitespace_query_short_circuit [] [] (fun _ => []) " \t " (by decide)

/-- C3 (cache store, modelled from the spec): persisting a generation
and hydrating it back returns exactly the persisted file and chunk
lists (hence equal file and chunk counts), the persisted version stamp
is the expected one, and hydrating any payload whose version stamp
differs from the code's expected current version yields `none`
(treated as an absent cache). -/
theorem c3_cache_roundtrip_and_version_gate (v now : Int) (files : List FileRec)
    (chunks : List (ChunkRec ℤ)) :
    cacheHydrate v (some (cachePersist v now files chunks)) = some (files, chunks) ∧
    (cachePersist v now files chunks).version = v ∧
    ∀ p : CachePayload ℤ, p.version ≠ v → cacheHydrate v (some p) = none := by
  refine ⟨?_, rfl, ?_⟩
  · simp [cacheHydrate, cachePersist]
  · intro p hp
    simp [cacheHydrate, hp]

/-- Witness for C3 at version stamp 1 and a mismatched payload of
version stamp 2. -/
theorem c3_witness :
    cacheHydrate 1 (some (cachePersist 1 0 ([] : List FileRec) ([] : List (ChunkRec ℤ))))
      = some ([], []) ∧
    cacheHydrate 1 (some (⟨2, 0, [], []⟩ : CachePayload ℤ)) = none :=
  ⟨(c3_cache_roundtrip_and_version_gate 1 0 [] []).1,
    (c3_cache_roundtrip_and_version_gate 1 0 [] []).2.2 ⟨2, 0, [], []⟩ (by decide)⟩

/-- The deduplication loop never grows the item list past five entries
when it starts below five. -/
theorem dedupLoop_length_le (kbF : List FileRec) :
    ∀ (scs : List Scored) (seen : List String) (items : List SearchItem),
      items.length < 5 → (dedupLoop kbF scs seen items).length ≤ 5 := by
  intro scs
  induction scs with
  | nil => intro seen items h; simpa [dedupLoop] using Nat.le_of_lt h
  | cons sc rest ih =>
    intro seen items h
    by_cases hseen : sc.ch.fileId ∈ seen
    · simpa [dedupLoop, hseen] using ih seen items h
    · cases hfind : kbF.find? (fun f => f.id = sc.ch.fileId) with
      | some f =>
        by_cases hlen : 5 ≤ (items ++ [mkSearchItem f]).length
        · simp only [dedupLoop, hseen, if_false, hfind, if_pos hlen]
          simp at hlen ⊢
          omega
        · simp only [dedupLoop, hseen, if_false, hfind, if_neg hlen]
          refine ih _ _ ?_
          simp at hlen ⊢
          omega
      | none =>
        have hno : ¬ 5 ≤ items.length := by omega
        simp only [dedupLoop, hseen, if_false, hfind, if_neg hno]
        exact ih _ _ h

/-- The deduplication loop keeps item ids distinct: assuming the ids
collected so far are distinct and all recorded in `seen`, the final item
ids are distinct. -/
theorem dedupLoop_nodup (kbF : List FileRec) :
    ∀ (scs : List Scored) (seen : List String) (items : List SearchItem),
      (items.map (fun it => it.id)).Nodup →
      (∀ it ∈ items, it.id ∈ seen) →
      ((dedupLoop kbF scs seen items).map (fun it => it.id)).Nodup := by
  intro scs
  induction scs with
  | nil => intro seen items h1 _; simpa [dedupLoop] using h1
  | cons sc rest ih =>
    intro seen items h1 h2
    by_cases hseen : sc.ch.fileId ∈ seen
    · simpa [dedupLoop, hseen] using ih seen items h1 h2
    · cases hfind : kbF.find? (fun f => f.id = sc.ch.fileId) with
      | some f =>
        have hfid : f.id = sc.ch.fileId := by
          have := List.find?_some hfind
          simpa using this
        have hnotin : (mkSearchItem f).id ∉ items.map (fun it => it.id) := by
          intro hmem
          obtain ⟨it, hit, hid⟩ := List.mem_map.mp hmem
          have hin : it.id ∈ seen := h2 it hit
          rw [hid] at hin
          have : (mkSearchItem f).id = sc.ch.fileId := by
            simpa [mkSearchItem] using hfid
          rw [this] at hin
          exact hseen hin
        have h1' : ((items ++ [mkSearchItem f]).map (fun it => it.id)).Nodup := by
          rw [List.map_append]
          refine List.Nodup.append h1 (by simp) ?_
          intro x hx hx'
          rw [List.map_singleton, List.mem_singleton] at hx'
          subst hx'
          exact hnotin hx
        by_cases hlen : 5 ≤ (items ++ [mkSearchItem f]).length
        · simpa only [dedupLoop, hseen, if_false, hfind, if_pos hlen] using h1'
        · simp only [dedupLoop, hseen, if_false, hfind, if_neg hlen]
          refine ih _ _ h1' ?_
          intro it hit
          rcases List.mem_append.mp hit with hmem | hmem
          · exact List.mem_cons_of_mem _ (h2 it hmem)
          · rw [List.mem_singleton] at hmem
            subst hmem
            have : (mkSearchItem f).id = sc.ch.fileId := by
              simpa [mkSearchItem] using hfid
            rw [this]
            exact List.mem_cons_self _ _
      | none =>
        by_cases hlen : 5 ≤ items.length
        · simpa only [dedupLoop, hseen, if_false, hfind, if_pos hlen] using h1
        · simp only [dedupLoop, hseen, if_false, hfind, if_neg hlen]
          exact ih _ _ h1 (fun it hit => List.mem_cons_of_mem _ (h2 it hit))

/-- Every item produced by the deduplication loop either was already in
the accumulator or carries the file id of one of the scored chunks the
loop walked. -/
theorem dedupLoop_mem (kbF : List FileRec) :
    ∀ (scs : List Scored) (seen : List String) (items : List SearchItem)
      (x : SearchItem), x ∈ dedupLoop kbF scs seen items →
      x ∈ items ∨ x.id ∈ scs.map (fun sc => sc.ch.fileId) := by
  intro scs
  induction scs with
  | nil => intro seen items x hx; simp [dedupLoop] at hx; exact Or.inl hx
  | cons sc rest ih =>
    intro seen items x hx
    by_cases hseen : sc.ch.fileId ∈ seen
    · rw [dedupLoop, if_pos hseen] at hx
      rcases ih seen items x hx with h | h
      · exact Or.inl h
      · exact Or.inr (List.mem_cons_of_mem _ h)
    · cases hfind : kbF.find? (fun f => f.id = sc.ch.fileId) with
      | some f =>
        have hfid : (mkSearchItem f).id = sc.ch.fileId := by
          have := List.find?_some hfind
          simpa [mkSearchItem] using this
        by_cases hlen : 5 ≤ (items ++ [mkSearchItem f]).length
        · simp only [dedupLoop, hseen, if_false, hfind, if_pos hlen] at hx
          rcases List.mem_append.mp hx with hmem | hmem
          · exact Or.inl hmem
          · rw [List.mem_singleton] at hmem
            subst hmem
            exact Or.inr (by rw [List.map_cons, hfid]; exact List.mem_cons_self _ _)
        · simp only [dedupLoop, hseen, if_false, hfind, if_neg hlen] at hx
          rcases ih _ _ x hx with h | h
          · rcases List.mem_append.mp h with hmem | hmem
            · exact Or.inl hmem
            · rw [List.mem_singleton] at hmem
              subst hmem
              exact Or.inr (by rw [List.map_cons, hfid]; exact List.mem_cons_self _ _)
          · exact Or.inr (List.mem_cons_of_mem _ h)
      | none =>
        by_cases hlen : 5 ≤ items.length
        · simp only [dedupLoop, hseen, if_false, hfind, if_pos hlen] at hx
          exact Or.inl hx
        · simp only [dedupLoop, hseen, if_false, hfind, if_neg hlen] at hx
          rcases ih _ _ x hx with h | h
          · exact Or.inl h
          · exact Or.inr (List.mem_cons_of_mem _ h)

/-- C8: for every query embedding and every index state, the search
result never contains two entries with the same file id (the `seen` set
keeps only the first, highest-ranked occurrence of each file id), and at
most `topK = 5` items are returned. -/
theorem c8_search_distinct_files (kbFiles : List FileRec)
    (kbChunks : List (ChunkRec ℝ)) (qEmb : List ℝ) :
    ((searchItems kbFiles kbChunks qEmb).map (fun it => it.id)).Nodup ∧
    (searchItems kbFiles kbChunks qEmb).length ≤ 5 := by
  constructor
  · unfold searchItems
    exact dedupLoop_nodup kbFiles (rankedTop20 qEmb kbChunks) [] [] (by simp) (by simp)
  · unfold searchItems
    exact dedupLoop_length_le kbFiles (rankedTop20 qEmb kbChunks) [] [] (by simp)

/-- A universally true relation is pairwise true on every list. -/
theorem pairwise_of_total {α : Type} {R : α → α → Prop} (h : ∀ a b, R a b) :
    ∀ l : List α, l.Pairwise R := by
  intro l
  induction l with
  | nil => exact List.Pairwise.nil
  | cons a l ih => exact List.Pairwise.cons (fun b _ => h a b) ih

/-- Cosine of the empty query vector against anything is 0 (the loop
body never runs, so all accumulators stay 0 and the `|| 1` guard
applies). -/
theorem cosine_nil_left (b : List ℝ) : cosine [] b = 0 := by
  have h := cosineSums_left_zero [] b (by intro x hx; cases hx)
  have hden : cosineDen [] b = 1 := by
    simp [cosineDen, h.2, Real.sqrt_zero]
  simp [cosine, hden, h.1]

/-- With the empty query vector all chunk scores are equal, so the
descending comparator accepts every adjacent pair. -/
theorem scoredLe_nil_query (c d : ChunkRec ℝ) :
    scoredLe ⟨c, cosine [] c.embedding⟩ ⟨d, cosine [] d.embedding⟩ = true := by
  simp [scoredLe, cosine_nil_left]

/-- Evaluation of the search pipeline on the 22-chunk fixture with the
empty query vector: all scores tie, the stable sort keeps encounter
order, the top-20 cut drops the sole chunks of E and F, and the result
is the four files A-D. -/
theorem searchItems_fixture :
    searchItems filesSix chunksTwentyTwo [] =
      [mkSearchItem (fileOf "A"), mkSearchItem (fileOf "B"),
       mkSearchItem (fileOf "C"), mkSearchItem (fileOf "D")] := by
  have hsortd : (scoreChunks [] chunksTwentyTwo).mergeSort scoredLe
      = scoreChunks [] chunksTwentyTwo := by
    apply List.mergeSort_of_sorted
    refine List.pairwise_map.mpr ?_
    exact pairwise_of_total (fun a b => scoredLe_nil_query a b) _
  unfold searchItems rankedTop20
  rw [hsortd]
  rfl

/-- C10: the search deduplicates only among the 20 highest-ranked
chunks — every returned item's id is the file id of one of the chunks
surviving the top-20 cut, so a file whose best chunk ranks below the
top 20 never appears; consequently (second and third conjuncts, on the
fixture index) the result can hold fewer than 5 distinct files even
though more than 5 distinct files have chunks in the index. -/
theorem c10_dedup_only_top20 :
    (∀ (kbFiles : List FileRec) (kbChunks : List (ChunkRec ℝ)) (qEmb : List ℝ)
        (x : SearchItem), x ∈ searchItems kbFiles kbChunks qEmb →
        x.id ∈ (rankedTop20 qEmb kbChunks).map (fun sc => sc.ch.fileId)) ∧
    (searchItems filesSix chunksTwentyTwo []).length < 5 ∧
    5 < ((chunksTwentyTwo.map (fun c => c.fileId)).dedup).length := by
  refine ⟨?_, ?_, ?_⟩
  · intro kbFiles kbChunks qEmb x hx
    unfold searchItems at hx
    rcases dedupLoop_mem kbFiles (rankedTop20 qEmb kbChunks) [] [] x hx with h | h
    · cases h
    · exact h
  · rw [searchItems_fixture]
    decide
  · decide

/-- Witness for C10: the item of file A is in the fixture's search
result, and its id indeed appears among the top-20 chunk file ids. -/
theorem c10_witness :
    mkSearchItem (fileOf "A") ∈ searchItems filesSix chunksTwentyTwo [] ∧
    (mkSearchItem (fileOf "A")).id ∈
      (rankedTop20 [] chunksTwentyTwo).map (fun sc => sc.ch.fileId) := by
  have hmem : mkSearchItem (fileOf "A") ∈ searchItems filesSix chunksTwentyTwo [] := by
    rw [searchItems_fixture]
    exact List.mem_cons_self _ _
  exact ⟨hmem, c10_dedup_only_top20.1 filesSix chunksTwentyTwo [] _ hmem⟩

/-- The fuelled decimal digit worker agrees with `Nat.digits` whenever
the fuel covers the number. -/
theorem natToDecAux_eq : ∀ (n fuel : Nat), n ≤ fuel →
    natToDecAux fuel n = (Nat.digits 10 n).map Nat.digitChar := by
  intro n
  induction n using Nat.strong_induction_on with
  | _ n ih =>
    intro fuel h
    match n, fuel with
    | 0, 0 => simp [natToDecAux]
    | 0, fuel + 1 => simp [natToDecAux]
    | m + 1, 0 => omega
    | m + 1, fuel + 1 =>
      have hdiv : (m + 1) / 10 < m + 1 := Nat.div_lt_self (Nat.succ_pos m) (by norm_num)
      have hle : (m + 1) / 10 ≤ fuel := by omega
      rw [natToDecAux, ih ((m + 1) / 10) hdiv fuel hle,
        Nat.digits_def' (by norm_num : (1 : Nat) < 10) (Nat.succ_pos m)]
      simp

/-- Digit characters are distinct for distinct digits. -/
theorem digitChar_injOn : ∀ a, a < 10 → ∀ b, b < 10 →
    Nat.digitChar a = Nat.digitChar b → a = b := by decide

/-- No digit character is the hash mark. -/
theorem digitChar_ne_hash : ∀ a, a < 10 → Nat.digitChar a ≠ '#' := by decide

/-- Mapping `digitChar` over digit lists is injective. -/
theorem map_digitChar_inj : ∀ (l1 l2 : List Nat), (∀ d ∈ l1, d < 10) → (∀ d ∈ l2, d < 10) →
    l1.map Nat.digitChar = l2.map Nat.digitChar → l1 = l2 := by
  intro l1
  induction l1 with
  | nil =>
    intro l2 _ _ h
    cases l2 with
    | nil => rfl
    | cons b bs => simp at h
  | cons a as ih =>
    intro l2 h1 h2 h
    cases l2 with
    | nil => simp at h
    | cons b bs =>
      simp only [List.map_cons, List.cons.injEq] at h
      have ha : a < 10 := h1 a (by simp)
      have hb : b < 10 := h2 b (by simp)
      rw [digitChar_injOn a ha b hb h.1,
        ih bs (fun d hd => h1 d (by simp [hd])) (fun d hd => h2 d (by simp [hd])) h.2]

/-- The decimal rendering of a natural number determines the number. -/
theorem natToDec_inj : ∀ m n : Nat, natToDec m = natToDec n → m = n := by
  have hdig : ∀ k : Nat, k ≠ 0 → natToDec k = ((Nat.digits 10 k).map Nat.digitChar).reverse := by
    intro k hk
    simp [natToDec, hk, natToDecAux_eq k k le_rfl]
  have hzero : ∀ k : Nat, k ≠ 0 → natToDec k ≠ ['0'] := by
    intro k hk hcon
    rw [hdig k hk] at hcon
    have h' : (Nat.digits 10 k).map Nat.digitChar = ['0'] := by
      have := congrArg List.reverse hcon
      simpa using this
    have hdg : Nat.digits 10 k = [0] := by
      refine map_digitChar_inj _ _ (fun d hd => Nat.digits_lt_base (by norm_num) hd)
        (fun d hd => by simp at hd; omega) ?_
      rw [h']
      rfl
    have hk0 : k = 0 := by
      have ho := Nat.ofDigits_digits 10 k
      rw [hdg] at ho
      simpa [Nat.ofDigits] using ho.symm
    exact hk hk0
  intro m n h
  by_cases hm : m = 0 <;> by_cases hn : n = 0
  · rw [hm, hn]
  · exfalso
    apply hzero n hn
    rw [← h, hm]
    rfl
  · exfalso
    apply hzero m hm
    rw [h, hn]
    rfl
  · rw [hdig m hm, hdig n hn] at h
    have h' := List.reverse_injective h
    have hdg := map_digitChar_inj _ _ (fun d hd => Nat.digits_lt_base (by norm_num) hd)
      (fun d hd => Nat.digits_lt_base (by norm_num) hd) h'
    have ho := Nat.ofDigits_digits 10 m
    rw [hdg] at ho
    exact ((Nat.ofDigits_digits 10 n).symm.trans ho).symm

/-- The decimal rendering never contains a hash mark. -/
theorem natToDec_no_hash : ∀ n : Nat, '#' ∉ natToDec n := by
  intro n
  by_cases hn : n = 0
  · subst hn; decide
  · simp only [natToDec, hn, if_false, natToDecAux_eq n n le_rfl]
    intro hmem
    rw [List.mem_reverse] at hmem
    obtain ⟨d, hd, hdc⟩ := List.mem_map.mp hmem
    exact digitChar_ne_hash d (Nat.digits_lt_base (by norm_num) hd) hdc

/-- Splitting at the hash separator is unambiguous when neither suffix
contains a hash mark. -/
theorem append_hash_inj : ∀ (a b u v : List Char), '#' ∉ u → '#' ∉ v →
    a ++ '#' :: u = b ++ '#' :: v → a = b ∧ u = v := by
  intro a
  induction a with
  | nil =>
    intro b u v hu hv h
    cases b with
    | nil => simpa using h
    | cons c cs =>
      simp only [List.nil_append, List.cons_append, List.cons.injEq] at h
      exfalso
      apply hu
      rw [h.2]
      exact List.mem_append.mpr (Or.inr (List.mem_cons_self _ _))
  | cons c cs ih =>
    intro b u v hu hv h
    cases b with
    | nil =>
      simp only [List.nil_append, List.cons_append, List.cons.injEq] at h
      exfalso
      apply hv
      rw [← h.2]
      exact List.mem_append.mpr (Or.inr (List.mem_cons_self _ _))
    | cons d ds =>
      simp only [List.cons_append, List.cons.injEq] at h
      obtain ⟨h1, h2⟩ := h
      obtain ⟨hb, huv⟩ := ih ds u v hu hv h2
      exact ⟨by rw [h1, hb], huv⟩

/-- Chunk ids determine the file id and the ordinal: the ordinal is the
digit run after the last hash mark and the file id is everything before
it. -/
theorem mkChunkId_inj : ∀ (i1 i2 : String) (k1 k2 : Nat),
    mkChunkId i1 k1 = mkChunkId i2 k2 → i1 = i2 ∧ k1 = k2 := by
  intro i1 i2 k1 k2 h
  have hdata : i1.data ++ '#' :: natToDec k1 = i2.data ++ '#' :: natToDec k2 := by
    have := congrArg String.data h
    simpa [mkChunkId, natToDecStr, String.data_append] using this
  obtain ⟨h1, h2⟩ := append_hash_inj i1.data i2.data _ _
    (natToDec_no_hash k1) (natToDec_no_hash k2) hdata
  exact ⟨String.ext h1, natToDec_inj k1 k2 h2⟩

/-- The file record id is the basename of the source path. -/
theorem mkFileRec_id (p : String) (m : Meta) (b : String) :
    (mkFileRec p m b).id = basenameMd p := rfl

/-- The chunk ids pushed for one file are that file's id tagged with the
ordinals `0, …, embeds.length - 1`. -/
theorem mkChunks_ids {α : Type} (fid : String) (m : Meta) (parts : List String)
    (embeds : List (List α)) :
    (mkChunks fid m parts embeds).map (fun c => c.id)
      = (List.range embeds.length).map (mkChunkId fid) := by
  have h1 : (mkChunks fid m parts embeds).map (fun c => c.id)
      = embeds.enum.map (fun p => mkChunkId fid p.1) := by
    unfold mkChunks
    rw [List.map_map]
    rfl
  rw [h1, List.enum_eq_zip_range,
    show (fun p : Nat × List α => mkChunkId fid p.1)
      = (mkChunkId fid) ∘ Prod.fst from rfl, ← List.map_map,
    List.map_fst_zip _ _ (by simp)]

/-- Every chunk pushed for one file carries that file's id, and its
record id has the `fileId#ordinal` shape. -/
theorem mkChunks_shape {α : Type} (fid : String) (m : Meta) (parts : List String)
    (embeds : List (List α)) :
    ∀ c ∈ mkChunks fid m parts embeds, c.fileId = fid ∧ ∃ k, c.id = mkChunkId fid k := by
  intro c hc
  unfold mkChunks at hc
  obtain ⟨p, _, hc'⟩ := List.mem_map.mp hc
  subst hc'
  exact ⟨rfl, p.1, rfl⟩

/-- Invariant induction for the per-file loop: if the chunk ids
accumulated so far are distinct, have the `fileId#ordinal` shape, and
use no file id of the documents still to be processed, and the pending
documents' file ids are themselves distinct, then the chunk ids at loop
exit are distinct. -/
theorem kbRunAux_chunks_nodup {α : Type} (embed : Embedder α) :
    ∀ (docs : List SrcFile) (s : KBState α),
      ((s.chunks.map (fun c => c.id)).Nodup) →
      (∀ c ∈ s.chunks, ∃ k, c.id = mkChunkId c.fileId k) →
      (validIds docs).Nodup →
      (∀ c ∈ s.chunks, c.fileId ∉ validIds docs) →
      (((kbRunAux embed docs s).final.chunks).map (fun c => c.id)).Nodup := by
  intro docs
  induction docs with
  | nil => intro s h1 _ _ _; simpa [kbRunAux] using h1
  | cons d rest ih =>
    intro s h1 h2 h3 h4
    cases hd : d.meta with
    | none =>
      have hv : validIds (d :: rest) = validIds rest := by simp [validIds, hd]
      rw [hv] at h3 h4
      simpa [kbRunAux, hd] using ih s h1 h2 h3 h4
    | some m =>
      have hv : validIds (d :: rest) = basenameMd d.path :: validIds rest := by
        simp [validIds, hd]
      rw [hv] at h3 h4
      have h3' : (validIds rest).Nodup := (List.nodup_cons.mp h3).2
      have hbase : basenameMd d.path ∉ validIds rest := (List.nodup_cons.mp h3).1
      cases hemb : embed (docParts m d.body) with
      | error e =>
        simpa [kbRunAux, hd, hemb] using h1
      | ok embeds =>
        simp only [kbRunAux, hd, hemb]
        apply ih
        · rw [List.map_append]
          refine List.Nodup.append h1 ?_ ?_
          · rw [mkFileRec_id, mkChunks_ids]
            refine List.Nodup.map ?_ (List.nodup_range _)
            intro k1 k2 hk
            exact (mkChunkId_inj _ _ _ _ hk).2
          · intro x hx hx'
            rw [mkFileRec_id, mkChunks_ids] at hx'
            obtain ⟨k, _, hxk⟩ := List.mem_map.mp hx'
            obtain ⟨c, hc, hcx⟩ := List.mem_map.mp hx
            obtain ⟨k', hck⟩ := h2 c hc
            have hne : c.fileId ≠ basenameMd d.path := fun he =>
              h4 c hc (by rw [he]; exact List.mem_cons_self _ _)
            apply hne
            have hid : mkChunkId c.fileId k' = mkChunkId (basenameMd d.path) k := by
              rw [← hck, hcx, ← hxk]
            exact (mkChunkId_inj _ _ _ _ hid).1
        · intro c hc
          rcases List.mem_append.mp hc with hmem | hmem
          · exact h2 c hmem
          · obtain ⟨hfid, k, hk⟩ := mkChunks_shape _ _ _ _ c hmem
            exact ⟨k, by rw [hk, hfid]⟩
        · exact h3'
        · intro c hc
          rcases List.mem_append.mp hc with hmem | hmem
          · exact fun hmm => h4 c hmem (List.mem_cons_of_mem _ hmm)
          · obtain ⟨hfid, _⟩ := mkChunks_shape _ _ _ _ c hmem
            rw [hfid, mkFileRec_id]
            exact hbase

/-- C5 (amended): within one generation built by `indexKB`, the chunk
ids `fileId#ordinal` are pairwise distinct provided the file ids derived
from the document paths (their basenames) are pairwise distinct; the id
is derived from the basename only, so this hypothesis is necessary (see
the counterexample). -/
theorem c5_chunk_ids_distinct_of_distinct_file_ids (embed : Embedder ℤ)
    (docs : List SrcFile) (h : (validIds docs).Nodup) :
    (((indexKB embed docs).final.chunks).map (fun c => c.id)).Nodup :=
  kbRunAux_chunks_nodup embed docs ⟨[], []⟩ (by simp) (by simp) h (by simp)

/-- Witness for C5 on two documents with distinct basenames. -/
theorem c5_witness :
    (validIds docsDistinct).Nodup ∧
    (((indexKB embedConstZ docsDistinct).final.chunks).map (fun c => c.id)).Nodup :=
  ⟨by decide, c5_chunk_ids_distinct_of_distinct_file_ids embedConstZ docsDistinct (by decide)⟩

/-- Counterexample for C5 as stated: two documents in different
directories sharing the basename `x.md` produce the chunk id `x#0`
twice within a single generation — chunk ids are not pairwise distinct
for every set of document files. -/
theorem c5_counterexample :
    ((indexKB embedConstZ docsDup).final.chunks).map (fun c => c.id) = ["x#0", "x#0"] ∧
    ¬ (((indexKB embedConstZ docsDup).final.chunks).map (fun c => c.id)).Nodup := by
  constructor <;> decide

/-- The per-file loop only appends to the shared arrays: the incoming
state is a prefix of the state at loop exit. -/
theorem kbRunAux_extends {α : Type} (embed : Embedder α) :
    ∀ (docs : List SrcFile) (s : KBState α),
      s.files <+: (kbRunAux embed docs s).final.files ∧
      s.chunks <+: (kbRunAux embed docs s).final.chunks := by
  intro docs
  induction docs with
  | nil => intro s; simp [kbRunAux]
  | cons d rest ih =>
    intro s
    cases hd : d.meta with
    | none => simpa [kbRunAux, hd] using ih s
    | some m =>
      cases hemb : embed (docParts m d.body) with
      | error e =>
        simp only [kbRunAux, hd, hemb]
        exact ⟨List.prefix_append _ _, List.prefix_rfl⟩
      | ok embeds =>
        simp only [kbRunAux, hd, hemb]
        have hsub := ih ⟨s.files ++ [mkFileRec d.path m d.body],
          s.chunks ++ mkChunks (mkFileRec d.path m d.body).id m (docParts m d.body) embeds⟩
        exact ⟨List.IsPrefix.trans (List.prefix_append _ _) hsub.1,
          List.IsPrefix.trans (List.prefix_append _ _) hsub.2⟩

/-- Every state observable at an embedding suspension of the per-file
loop is a prefix of the state at loop exit. -/
theorem kbRunAux_susp_prefix {α : Type} (embed : Embedder α) :
    ∀ (docs : List SrcFile) (s st : KBState α),
      st ∈ (kbRunAux embed docs s).susp →
      st.files <+: (kbRunAux embed docs s).final.files ∧
      st.chunks <+: (kbRunAux embed docs s).final.chunks := by
  intro docs
  induction docs with
  | nil => intro s st h; simp [kbRunAux] at h
  | cons d rest ih =>
    intro s st h
    cases hd : d.meta with
    | none =>
      simp only [kbRunAux, hd] at h ⊢
      exact ih s st h
    | some m =>
      cases hemb : embed (docParts m d.body) with
      | error e =>
        simp only [kbRunAux, hd, hemb] at h ⊢
        rw [List.mem_singleton] at h
        subst h
        exact ⟨List.prefix_rfl, List.prefix_rfl⟩
      | ok embeds =>
        simp only [kbRunAux, hd, hemb] at h ⊢
        rcases List.mem_cons.mp h with h | h
        · subst h
          have hsub := kbRunAux_extends embed rest ⟨s.files ++ [mkFileRec d.path m d.body],
            s.chunks ++ mkChunks (mkFileRec d.path m d.body).id m (docParts m d.body) embeds⟩
          exact ⟨hsub.1, List.IsPrefix.trans (List.prefix_append _ _) hsub.2⟩
        · exact ih _ st h

/-- After a successful pass over `docs`, the file array holds the
incoming files followed by one record per valid document, in order. -/
theorem kbRunAux_final_files {α : Type} (embed : Embedder α) :
    ∀ (docs : List SrcFile) (s : KBState α),
      (kbRunAux embed docs s).result = .ok () →
      (kbRunAux embed docs s).final.files = s.files ++ builtFiles docs := by
  intro docs
  induction docs with
  | nil => intro s _; simp [kbRunAux, builtFiles]
  | cons d rest ih =>
    intro s hok
    cases hd : d.meta with
    | none =>
      have hb : builtFiles (d :: rest) = builtFiles rest := by simp [builtFiles, hd]
      simp only [kbRunAux, hd] at hok ⊢
      rw [ih s hok, hb]
    | some m =>
      cases hemb : embed (docParts m d.body) with
      | error e =>
        simp only [kbRunAux, hd, hemb] at hok
        cases hok
      | ok embeds =>
        have hb : builtFiles (d :: rest) = mkFileRec d.path m d.body :: builtFiles rest := by
          simp [builtFiles, hd]
        simp only [kbRunAux, hd, hemb] at hok ⊢
        rw [ih _ hok, hb]
        simp

/-- C1 (amended): a rebuild mutates the shared index in place rather
than atomically swapping a complete generation.  The pre-rebuild
generation is destroyed when `indexKB` clears the arrays, and every
state a concurrent reader can observe at an embedding suspension is a
(possibly strict) prefix of the eventually-built generation; only when
the run returns does the state hold the complete new generation (one
file record per valid document).  Readers therefore see partial states
mid-rebuild, never "old or new" (see the counterexample). -/
theorem c1_mid_rebuild_states_are_prefixes (embed : Embedder ℤ) (docs : List SrcFile) :
    (∀ st ∈ (indexKB embed docs).susp,
      st.files <+: (indexKB embed docs).final.files ∧
      st.chunks <+: (indexKB embed docs).final.chunks) ∧
    ((indexKB embed docs).result = .ok () →
      (indexKB embed docs).final.files = builtFiles docs) := by
  constructor
  · intro st h
    exact kbRunAux_susp_prefix embed docs ⟨[], []⟩ st h
  · intro hok
    have := kbRunAux_final_files embed docs ⟨[], []⟩ hok
    simpa using this

/-- Counterexample for C1 as stated: rebuilding an unchanged document
set rebuilds the same generation, so the complete old and new
generations coincide with `final`; yet a concurrent reader at the single
embedding suspension observes one file record and no chunks — a state
that is neither the complete old nor the complete new generation, so the
swap is not atomic. -/
theorem c1_counterexample :
    (indexKB embedConstZ docSingle).result = .ok () ∧
    (indexKB embedConstZ docSingle).susp = [⟨[mkFileRec "a/x.md" mEmpty ""], []⟩] ∧
    (⟨[mkFileRec "a/x.md" mEmpty ""], []⟩ : KBState ℤ) ≠ (indexKB embedConstZ docSingle).final := by
  exact ⟨by decide, by decide, by decide⟩

/-- Witness for C1 (amended) on the single-document fixture. -/
theorem c1_witness :
    ((⟨[mkFileRec "a/x.md" mEmpty ""], []⟩ : KBState ℤ).files <+:
        (indexKB embedConstZ docSingle).final.files ∧
      (⟨[mkFileRec "a/x.md" mEmpty ""], []⟩ : KBState ℤ).chunks <+:
        (indexKB embedConstZ docSingle).final.chunks) ∧
    (indexKB embedConstZ docSingle).final.files = builtFiles docSingle :=
  ⟨(c1_mid_rebuild_states_are_prefixes embedConstZ docSingle).1 _ (by decide),
    (c1_mid_rebuild_states_are_prefixes embedConstZ docSingle).2 (by decide)⟩

/-- C2 (amended): when the embedding endpoint fails on the first valid
document, the build aborts and the error propagates to the caller, but
the index service does not retain the previous generation: the arrays
were cleared at rebuild start, so the service is left holding exactly
the failing document's file record and no chunks, whatever generation
was current before the rebuild. -/
theorem c2_abort_leaves_partial_state (embed : Embedder ℤ) :
    ∀ (pre : List SrcFile) (d : SrcFile) (rest : List SrcFile) (m : Meta),
      (∀ p ∈ pre, p.meta = none) → d.meta = some m →
      embed (docParts m d.body) = .error () →
      indexKB embed (pre ++ d :: rest)
        = ⟨[⟨[mkFileRec d.path m d.body], []⟩], ⟨[mkFileRec d.path m d.body], []⟩, .error ()⟩ := by
  intro pre
  induction pre with
  | nil =>
    intro d rest m _ hd hemb
    unfold indexKB
    simp only [List.nil_append, kbRunAux, hd, hemb]
  | cons p pre ih =>
    intro d rest m hpre hd hemb
    have hp : p.meta = none := hpre p (by simp)
    show kbRunAux embed ((p :: pre) ++ d :: rest) ⟨[], []⟩ = _
    simp only [List.cons_append, kbRunAux, hp]
    exact ih d rest m (fun q hq => hpre q (by simp [hq])) hd hemb

/-- Witness for C2 (amended): one unparseable document followed by one
valid document whose embedding call fails. -/
theorem c2_witness :
    indexKB embedFailZ ([⟨"skip.md", none, ""⟩] ++ ⟨"a/x.md", some mEmpty, ""⟩ :: [])
      = ⟨[⟨[mkFileRec "a/x.md" mEmpty ""], []⟩], ⟨[mkFileRec "a/x.md" mEmpty ""], []⟩,
          .error ()⟩ :=
  c2_abort_leaves_partial_state embedFailZ [⟨"skip.md", none, ""⟩]
    ⟨"a/x.md", some mEmpty, ""⟩ [] mEmpty (by decide) (by decide) rfl

/-- Counterexample for C2 as stated: the previous generation (the final
state of an earlier successful build over the same documents) holds a
chunk, but after the failing rebuild the service state differs from it —
the failed attempt did not leave the index equal to the generation that
was current before the rebuild. -/
theorem c2_counterexample :
    (indexKB embedFailZ docSingle).result = .error () ∧
    (indexKB embedConstZ docSingle).final.chunks ≠ [] ∧
    (indexKB embedFailZ docSingle).final ≠ (indexKB embedConstZ docSingle).final := by
  exact ⟨by decide, by decide, by decide⟩

/-- Counting actions through an interleaving: every action of both
handlers executes exactly once. -/
theorem interleave_countP {τ : Type} (p : τ → Bool) :
    ∀ {xs ys zs : List τ}, Interleave xs ys zs →
      zs.countP p = xs.countP p + ys.countP p := by
  intro xs ys zs h
  induction h with
  | nil => simp
  | left _ ih => simp only [List.countP_cons, ih]; omega
  | right _ ih => simp only [List.countP_cons, ih]; omega

/-- The empty schedule interleaved with any schedule is that schedule. -/
theorem interleave_nil_left {τ : Type} : ∀ ys : List τ, Interleave [] ys ys := by
  intro ys
  induction ys with
  | nil => exact Interleave.nil
  | cons y ys ih => exact Interleave.right ih

/-- Running one handler to completion and then the other is one of the
possible interleavings. -/
theorem interleave_append {τ : Type} : ∀ xs ys : List τ, Interleave xs ys (xs ++ ys) := by
  intro xs ys
  induction xs with
  | nil => simpa using interleave_nil_left ys
  | cons x xs ih => exact Interleave.left ih

/-- Soundness of the straight-line compilation: executing the compiled
per-file actions sequentially reaches exactly the state `indexKB`'s loop
reaches. -/
theorem execActs_buildActs {α : Type} (embed : Embedder α) :
    ∀ (docs : List SrcFile) (s : KBState α),
      execActs s (buildActs embed docs) = (kbRunAux embed docs s).final := by
  intro docs
  induction docs with
  | nil => intro s; simp [buildActs, execActs, kbRunAux]
  | cons d rest ih =>
    intro s
    cases hd : d.meta with
    | none =>
      simp only [buildActs, hd, kbRunAux]
      exact ih s
    | some m =>
      cases hemb : embed (docParts m d.body) with
      | error e =>
        simp only [buildActs, hd, hemb, kbRunAux]
        simp [execActs, execAct]
      | ok embeds =>
        simp only [buildActs, hd, hemb, kbRunAux]
        simp only [execActs, List.foldl_cons, execAct]
        exact ih _

/-- Soundness of the handler compilation: a full reindex handler's
actions drive the shared state to the post-build generation. -/
theorem execActs_reindexTask {α : Type} (embed : Embedder α) (docs : List SrcFile)
    (s : KBState α) :
    execActs s (reindexTask embed docs) = (indexKB embed docs).final := by
  unfold reindexTask indexKB
  simp only [execActs, List.foldl_cons, execAct]
  exact execActs_buildActs embed docs ⟨[], []⟩

/-- C4 (amended): the reindex endpoint has no single-flight
coordination — each authorized request runs its own complete build, so
under every interleaving of two overlapping reindex handlers the
embedding endpoint is invoked twice per valid document batch (the sum of
both handlers' calls), not once.  (Cold-start callers never trigger
builds at all in this code: the index is built once at module load,
before the server accepts requests.) -/
theorem c4_no_single_flight_double_build (embed : Embedder ℤ) (docs : List SrcFile)
    (sched : List (KBAct ℤ))
    (h : Interleave (reindexTask embed docs) (reindexTask embed docs) sched) :
    embedCallCount sched = 2 * embedCallCount (reindexTask embed docs) := by
  unfold embedCallCount
  rw [interleave_countP isEmbedCall h]
  omega

/-- Witness for C4 (amended) on a concrete schedule of two overlapping
reindex requests over one document. -/
theorem c4_witness :
    Interleave (reindexTask embedConstZ docSingle) (reindexTask embedConstZ docSingle)
      (reindexTask embedConstZ docSingle ++ reindexTask embedConstZ docSingle) ∧
    embedCallCount (reindexTask embedConstZ docSingle ++ reindexTask embedConstZ docSingle)
      = 2 * embedCallCount (reindexTask embedConstZ docSingle) :=
  ⟨interleave_append _ _,
    c4_no_single_flight_double_build embedConstZ docSingle _ (interleave_append _ _)⟩

/-- Counterexample for C4 as stated: a pair of overlapping reindex
requests over a one-document root performs two embedding-endpoint build
invocations, not exactly one — there is no single-flight sharing. -/
theorem c4_counterexample :
    Interleave (reindexTask embedConstZ docSingle) (reindexTask embedConstZ docSingle)
      (reindexTask embedConstZ docSingle ++ reindexTask embedConstZ docSingle) ∧
    embedCallCount (reindexTask embedConstZ docSingle ++ reindexTask embedConstZ docSingle)
      = 2 ∧
    (2 : Nat) ≠ 1 :=
  ⟨interleave_append _ _, by decide, by decide⟩

end AidleqKB
